import Mathlib

/-!
Verification of the source collection utility (`read.py`).

The program walks a directory tree (`os.walk`), prunes excluded directory
names and package-boundary subdirectories, filters files by lock-file
name, extension and a mimetype heuristic, reads the survivors as UTF-8
text, and formats the resulting mapping into one delimited string.

The embedding below models the filesystem as a finite tree, per-file read
outcomes explicitly (success / decode failure / other I/O failure), and
translates each function of the source. Python's ASCII-relevant
`str.lower` is modelled as a character map, and `pathlib.Path.suffix`
is translated from its exact definition (last dot, not in first position,
not in last position).
-/

namespace ReadPy

/-- Outcome of attempting `open(file).read()` on a single file:
successful UTF-8 decode with the given content, a `UnicodeDecodeError`,
or any other per-file exception with its message. -/
inductive FileData where
  | ok (content : String)
  | decodeError
  | ioError (msg : String)
deriving DecidableEq, Repr

mutual
/-- A filesystem node: a regular file (with its read outcome) or a
directory with a list of named entries. -/
inductive FS where
  | file (data : FileData)
  | dir (entries : Entries)
deriving DecidableEq, Repr

/-- The named entries of a directory, in directory-listing order. -/
inductive Entries where
  | nil
  | cons (name : String) (child : FS) (rest : Entries)
deriving DecidableEq, Repr
end

/-- View a directory's entries as a list of (name, node) pairs. -/
def Entries.toList : Entries → List (String × FS)
  | .nil => []
  | .cons n c r => (n, c) :: r.toList

/-- Concatenation of entry lists. -/
def appendEntries : Entries → Entries → Entries
  | .nil, es => es
  | .cons n c r, es => .cons n c (appendEntries r es)

/-- Model of Python's `str.lower()` on the ASCII strings this program
compares (maps each character to its lower-case form). -/
def pyLower (s : String) : String :=
  String.mk (s.data.map Char.toLower)

/-- Index of the last '.' in a character list, if any
(model of `str.rfind` restricted to what `Path.suffix` needs). -/
def rfindDot : List Char → Option Nat
  | [] => none
  | c :: rest =>
    match rfindDot rest with
    | some j => some (j + 1)
    | none => if c = '.' then some 0 else none

/-- Model of `pathlib.Path.suffix` on a file basename: the substring from
the last dot, provided that dot is neither the first nor the last
character; otherwise the empty string. -/
def pySuffix (name : String) : String :=
  match rfindDot name.data with
  | none => ""
  | some i => if 0 < i ∧ i + 1 < name.data.length then String.mk (name.data.drop i) else ""

/-- The lock / package-management file basenames skipped by
`read_source_files` (compared against the lower-cased basename). -/
def lock_file_names : List String :=
  ["package-lock.json", "yarn.lock", "poetry.lock", "pipfile.lock", "cargo.lock", "go.sum"]

/-- The package-boundary marker filenames: a subdirectory directly
containing one of these is pruned. -/
def package_indicators : List String :=
  ["package.json", "setup.py", "requirements.txt", "Cargo.toml", "go.mod"]

/-- Default `exclude_dirs` list of `read_source_files`. -/
def default_exclude_dirs : List String :=
  [".git", "node_modules", "__pycache__", "venv",
   "build", "dist", "coverage", ".next", ".cache",
   "lib", ".npm", ".yarn", "bower_components",
   ".vscode", ".idea", ".vs"]

/-- Default `include_extensions` list of `read_source_files`. -/
def default_include_extensions : List String :=
  [".py", ".js", ".jsx", ".ts", ".tsx",
   ".html", ".css", ".scss", ".sass",
   ".java", ".cpp", ".c", ".h", ".hpp",
   ".rb", ".php", ".go", ".rs", ".swift",
   ".json", ".yml", ".yaml", ".toml",
   ".md", ".env", ".gitignore", ".eslintrc",
   ".prettierrc", ".babelrc"]

/-- The two caller-suppliable parameters of `read_source_files`. -/
structure Config where
  exclude_dirs : List String
  include_extensions : List String
deriving Repr

/-- The default configuration of `read_source_files`. -/
def default_config : Config :=
  { exclude_dirs := default_exclude_dirs,
    include_extensions := default_include_extensions }

/-- Path join with '/', modelling `Path(root) / name` as a string. -/
def joinParts (base : String) (name : String) : String :=
  base ++ "/" ++ name

/-- The mimetype gate of lines 72-74: a file passes unless
`mimetypes.guess_type` returns a type not starting with "text/".
The guesser itself is an environment parameter of the embedding. -/
def mimeAdmits (mime : String → Option String) (path : String) : Bool :=
  match mime path with
  | none => true
  | some m => m.startsWith "text/"

/-- One iteration of the inner file loop (lines 58-87) for a single file:
lock-file skip, extension gate, mimetype gate, then the read with its
per-outcome handling. Returns the mapping entries (keyed by relative
path parts) and warning lines it contributes. -/
def readFileStep (cfg : Config) (mime : String → Option String) (base : String)
    (rel : List String) (name : String) (data : FileData) :
    List (List String × String) × List String :=
  if lock_file_names.contains (pyLower name) then ([], [])
  else if cfg.include_extensions.contains (pyLower (pySuffix name)) then
    if mimeAdmits mime (joinParts base name) then
      match data with
      | .ok content => ([(rel ++ [name], content)], [])
      | .decodeError =>
        ([], ["Warning: Could not read " ++ joinParts base name ++ " as text file"])
      | .ioError e =>
        ([], ["Error reading " ++ joinParts base name ++ ": " ++ e])
    else ([], [])
  else ([], [])

/-- The file loop over a directory's entries (directories among the
entries are handled by the walk, not here). -/
def processFiles (cfg : Config) (mime : String → Option String) (base : String)
    (rel : List String) : Entries → List (List String × String) × List String
  | .nil => ([], [])
  | .cons _ (FS.dir _) rest => processFiles cfg mime base rel rest
  | .cons name (FS.file data) rest =>
    let r := readFileStep cfg mime base rel name data
    let t := processFiles cfg mime base rel rest
    (r.1 ++ t.1, r.2 ++ t.2)

/-- Does a directory directly contain an entry named after one of the
package-boundary markers (the `p.exists()` test of lines 47-56)? -/
def hasIndicator (es : Entries) : Bool :=
  package_indicators.any (fun m => es.toList.any (fun e => e.1 == m))

/-- The recursive part of the walk (lines 42-56): for each subdirectory
entry, prune it when its name is in `exclude_dirs` or it contains a
package-boundary marker; otherwise collect its files and recurse, in
`os.walk` depth-first order. File entries are ignored here. -/
def walkSubs (cfg : Config) (mime : String → Option String) (base : String)
    (rel : List String) : Entries → List (List String × String) × List String
  | .nil => ([], [])
  | .cons _ (FS.file _) rest => walkSubs cfg mime base rel rest
  | .cons n (FS.dir es) rest =>
    let t := walkSubs cfg mime base rel rest
    if cfg.exclude_dirs.contains n || hasIndicator es then t
    else
      let base2 := joinParts base n
      let rel2 := rel ++ [n]
      let rf := processFiles cfg mime base2 rel2 es
      let rs := walkSubs cfg mime base2 rel2 es
      (rf.1 ++ rs.1 ++ t.1, rf.2 ++ rs.2 ++ t.2)

/-- The whole walk of lines 42-87 starting at the (resolved) root node:
`os.walk` on a non-directory yields nothing; on a directory it yields the
root's files first, then each kept subdirectory depth-first. -/
def walkFS (cfg : Config) (mime : String → Option String) (base : String) :
    FS → List (List String × String) × List String
  | .file _ => ([], [])
  | .dir es =>
    let f := processFiles cfg mime base [] es
    let s := walkSubs cfg mime base [] es
    (f.1 ++ s.1, f.2 ++ s.2)

/-- `read_source_files` (lines 5-89): `root = none` models a path that
does not exist (the `src_path.exists()` check fails and
`FileNotFoundError` is raised); otherwise the walk runs on the resolved
node. The returned pair is (collected mapping, warning lines). -/
def read_source_files (cfg : Config) (mime : String → Option String)
    (src_path : String) (root : Option FS) :
    Except String (List (List String × String) × List String) :=
  match root with
  | none => Except.error ("Source directory not found: " ++ src_path)
  | some fs => Except.ok (walkFS cfg mime src_path fs)

/-- The mapping part of a successful run (keys are relative-path parts). -/
def collection (cfg : Config) (mime : String → Option String)
    (src_path : String) (fs : FS) : List (List String × String) :=
  (walkFS cfg mime src_path fs).1

/-- The warning lines of a run. -/
def warnings (cfg : Config) (mime : String → Option String)
    (src_path : String) (fs : FS) : List String :=
  (walkFS cfg mime src_path fs).2

/-- The relative-path keys of the collected mapping. -/
def collectionKeys (cfg : Config) (mime : String → Option String)
    (src_path : String) (fs : FS) : List (List String) :=
  (collection cfg mime src_path fs).map Prod.fst

/-- A mime guesser returning no type for every path. -/
def no_mime : String → Option String := fun _ => none

/-- The comparison used by `sorted(code_files.items())`: Python tuple
order, lexicographic on (key, value). -/
def pairLe (a b : String × String) : Bool :=
  if a.1 = b.1 then decide (a.2 ≤ b.2) else decide (a.1 < b.1)

/-- `sorted(code_files.items())`. -/
def sorted_items (code_files : List (String × String)) : List (String × String) :=
  code_files.mergeSort pairLe

/-- The 80-character separator line `"=" * 80`. -/
def sep_line : String := String.mk (List.replicate 80 '=')

/-- `format_for_sharing` (lines 91-104), with the mapping's items given
in insertion order. -/
def format_for_sharing (code_files : List (String × String)) : String :=
  if code_files.isEmpty then "No code files found"
  else
    let formatted_text := (sorted_items code_files).flatMap (fun e =>
      ["\n=== " ++ e.1 ++ " ===\n", e.2, "\n" ++ sep_line ++ "\n"])
    String.join formatted_text

/-- The block the spec describes for one entry: blank line, header line,
content verbatim, newline, 80-character separator line, newline. -/
def entry_block (e : String × String) : String :=
  "\n=== " ++ e.1 ++ " ===\n" ++ e.2 ++ "\n" ++ sep_line ++ "\n"

end ReadPy

namespace ReadPy

/-! ### Basic lemmas about the lower-casing and suffix models -/

theorem toNat_ofNat_of_valid (n : Nat) (h : n.isValidChar) :
    (Char.ofNat n).toNat = n := by
  unfold Char.ofNat
  rw [dif_pos h]
  rfl

theorem char_toLower_eq (c : Char) :
    c.toLower = if c.toNat ≥ 65 ∧ c.toNat ≤ 90 then Char.ofNat (c.toNat + 32) else c := rfl

theorem char_toLower_idem (c : Char) : (c.toLower).toLower = c.toLower := by
  rw [char_toLower_eq c]
  by_cases h : c.toNat ≥ 65 ∧ c.toNat ≤ 90
  · rw [if_pos h, char_toLower_eq, toNat_ofNat_of_valid _ (Or.inl (by omega)),
      if_neg (by omega)]
  · rw [if_neg h, char_toLower_eq, if_neg h]

theorem pyLower_idem (s : String) : pyLower (pyLower s) = pyLower s := by
  unfold pyLower
  apply congrArg String.mk
  rw [List.map_map]
  apply List.map_congr_left
  intro a _
  exact char_toLower_idem a

theorem rfindDot_eq_none {cs : List Char} (h : '.' ∉ cs) : rfindDot cs = none := by
  induction cs with
  | nil => rfl
  | cons c rest ih =>
    rw [List.mem_cons, not_or] at h
    rw [rfindDot, ih h.2, if_neg (fun hc => h.1 hc.symm)]

theorem pySuffix_dotfile {name : String} (h1 : name.data.head? = some '.')
    (h2 : '.' ∉ name.data.tail) : pySuffix name = "" := by
  unfold pySuffix
  cases hd : name.data with
  | nil => rw [hd] at h1; simp at h1
  | cons c rest =>
    rw [hd] at h1 h2
    simp only [List.head?_cons, Option.some.injEq] at h1
    simp only [List.tail_cons] at h2
    simp [rfindDot, rfindDot_eq_none h2, h1]

/-! ### An over-approximation of what the walk can collect -/

/-- A chain of subdirectory entries the walk may descend (each neither
name-excluded nor containing a package marker), ending in a file entry
that passes the lock-file and extension gates. Every key in the walk's
result arises from such a chain. -/
inductive Collected (cfg : Config) : Entries → List String → Prop where
  | file {es : Entries} {name : String} {data : FileData}
      (hmem : (name, FS.file data) ∈ es.toList)
      (hlock : lock_file_names.contains (pyLower name) = false)
      (hext : cfg.include_extensions.contains (pyLower (pySuffix name)) = true) :
      Collected cfg es [name]
  | dir {es sub : Entries} {n : String} {ks : List String}
      (hmem : (n, FS.dir sub) ∈ es.toList)
      (hexcl : cfg.exclude_dirs.contains n = false)
      (hind : hasIndicator sub = false)
      (hsub : Collected cfg sub ks) :
      Collected cfg es (n :: ks)

theorem collected_mono {cfg : Config} {n : String} {c : FS} {rest : Entries}
    {ks : List String} (h : Collected cfg rest ks) :
    Collected cfg (Entries.cons n c rest) ks := by
  cases h with
  | file hmem hlock hext =>
    exact Collected.file (List.mem_cons_of_mem _ hmem) hlock hext
  | dir hmem hexcl hind hsub =>
    exact Collected.dir (List.mem_cons_of_mem _ hmem) hexcl hind hsub

theorem readFileStep_mem {cfg : Config} {mime : String → Option String}
    {base : String} {rel : List String} {name : String} {data : FileData}
    {kc : List String × String}
    (h : kc ∈ (readFileStep cfg mime base rel name data).1) :
    kc.1 = rel ++ [name] ∧
    lock_file_names.contains (pyLower name) = false ∧
    cfg.include_extensions.contains (pyLower (pySuffix name)) = true := by
  by_cases h1 : pyLower name ∈ lock_file_names
  · simp [readFileStep, h1] at h
  · by_cases h2 : pyLower (pySuffix name) ∈ cfg.include_extensions
    · by_cases h3 : mimeAdmits mime (joinParts base name) = true
      · cases data with
        | ok content =>
          simp [readFileStep, h1, h2, h3] at h
          subst h
          exact ⟨rfl, by simpa using h1, by simpa using h2⟩
        | decodeError => simp [readFileStep, h1, h2, h3] at h
        | ioError e => simp [readFileStep, h1, h2, h3] at h
      · simp [readFileStep, h1, h2, h3] at h
    · simp [readFileStep, h1, h2] at h

theorem processFiles_mem (cfg : Config) (mime : String → Option String) (base : String) :
    ∀ (es : Entries) (rel : List String) (kc : List String × String),
      kc ∈ (processFiles cfg mime base rel es).1 →
      ∃ ks, kc.1 = rel ++ ks ∧ Collected cfg es ks
  | .nil, rel, kc, h => by simp [processFiles] at h
  | .cons n (FS.dir d) rest, rel, kc, h => by
    rw [processFiles] at h
    obtain ⟨ks, hk1, hk2⟩ := processFiles_mem cfg mime base rest rel kc h
    exact ⟨ks, hk1, collected_mono hk2⟩
  | .cons name (FS.file data) rest, rel, kc, h => by
    simp only [processFiles, List.mem_append] at h
    rcases h with h | h
    · obtain ⟨hk1, hk2, hk3⟩ := readFileStep_mem h
      exact ⟨[name], hk1, Collected.file (List.mem_cons_self _ _) hk2 hk3⟩
    · obtain ⟨ks, hk1, hk2⟩ := processFiles_mem cfg mime base rest rel kc h
      exact ⟨ks, hk1, collected_mono hk2⟩

theorem walkSubs_mem (cfg : Config) (mime : String → Option String) :
    ∀ (es : Entries) (base : String) (rel : List String) (kc : List String × String),
      kc ∈ (walkSubs cfg mime base rel es).1 →
      ∃ ks, kc.1 = rel ++ ks ∧ Collected cfg es ks
  | .nil, base, rel, kc, h => by simp [walkSubs] at h
  | .cons n (FS.file d) rest, base, rel, kc, h => by
    rw [walkSubs] at h
    obtain ⟨ks, hk1, hk2⟩ := walkSubs_mem cfg mime rest base rel kc h
    exact ⟨ks, hk1, collected_mono hk2⟩
  | .cons n (FS.dir sub) rest, base, rel, kc, h => by
    by_cases hg : (cfg.exclude_dirs.contains n || hasIndicator sub) = true
    · simp only [walkSubs] at h
      rw [if_pos hg] at h
      obtain ⟨ks, hk1, hk2⟩ := walkSubs_mem cfg mime rest base rel kc h
      exact ⟨ks, hk1, collected_mono hk2⟩
    · have hg2 := hg
      simp only [Bool.or_eq_true, not_or, Bool.not_eq_true] at hg2
      simp only [walkSubs] at h
      rw [if_neg hg] at h
      simp only [List.mem_append] at h
      rcases h with (h | h) | h
      · obtain ⟨ks, hk1, hk2⟩ := processFiles_mem cfg mime (joinParts base n) sub (rel ++ [n]) kc h
        refine ⟨n :: ks, ?_, Collected.dir (List.mem_cons_self _ _) hg2.1 hg2.2 hk2⟩
        rw [hk1, List.append_assoc]
        rfl
      · obtain ⟨ks, hk1, hk2⟩ := walkSubs_mem cfg mime sub (joinParts base n) (rel ++ [n]) kc h
        refine ⟨n :: ks, ?_, Collected.dir (List.mem_cons_self _ _) hg2.1 hg2.2 hk2⟩
        rw [hk1, List.append_assoc]
        rfl
      · obtain ⟨ks, hk1, hk2⟩ := walkSubs_mem cfg mime rest base rel kc h
        exact ⟨ks, hk1, collected_mono hk2⟩

theorem walkFS_mem {cfg : Config} {mime : String → Option String} {base : String}
    {fs : FS} {kc : List String × String}
    (h : kc ∈ (walkFS cfg mime base fs).1) :
    ∃ es ks, fs = FS.dir es ∧ kc.1 = ks ∧ Collected cfg es ks := by
  cases fs with
  | file d => simp [walkFS] at h
  | dir es =>
    simp only [walkFS, List.mem_append] at h
    rcases h with h | h
    · obtain ⟨ks, hk1, hk2⟩ := processFiles_mem cfg mime base es [] kc h
      exact ⟨es, ks, rfl, by simpa using hk1, hk2⟩
    · obtain ⟨ks, hk1, hk2⟩ := walkSubs_mem cfg mime es base [] kc h
      exact ⟨es, ks, rfl, by simpa using hk1, hk2⟩

theorem collected_shape {cfg : Config} {es : Entries} {ks : List String}
    (h : Collected cfg es ks) :
    ∃ ds name, ks = ds ++ [name] ∧
      (∀ d ∈ ds, cfg.exclude_dirs.contains d = false) ∧
      lock_file_names.contains (pyLower name) = false ∧
      cfg.include_extensions.contains (pyLower (pySuffix name)) = true := by
  induction h with
  | file hmem hlock hext => exact ⟨[], _, rfl, by simp, hlock, hext⟩
  | dir hmem hexcl hind hsub ih =>
    obtain ⟨ds, name, hk, hds, hl, he⟩ := ih
    refine ⟨_ :: ds, name, by rw [hk]; rfl, ?_, hl, he⟩
    intro d hd
    rcases List.mem_cons.mp hd with hd | hd
    · exact hd ▸ hexcl
    · exact hds d hd

end ReadPy

namespace ReadPy

theorem concat_eq_concat {α : Type} {l₁ l₂ : List α} {a b : α}
    (h : l₁ ++ [a] = l₂ ++ [b]) : l₁ = l₂ ∧ a = b := by
  obtain ⟨h1, h2⟩ := List.append_inj' h rfl
  exact ⟨h1, by simpa using h2⟩

theorem collectionKeys_shape {cfg : Config} {mime : String → Option String}
    {base : String} {fs : FS} {ks : List String}
    (h : ks ∈ collectionKeys cfg mime base fs) :
    ∃ ds name, ks = ds ++ [name] ∧
      (∀ d ∈ ds, cfg.exclude_dirs.contains d = false) ∧
      lock_file_names.contains (pyLower name) = false ∧
      cfg.include_extensions.contains (pyLower (pySuffix name)) = true := by
  simp only [collectionKeys, collection, List.mem_map] at h
  obtain ⟨kc, hkc, hkey⟩ := h
  obtain ⟨es, ks2, hfs, hk, hcol⟩ := walkFS_mem hkc
  obtain ⟨ds, nm, hsk, hds, hl, he⟩ := collected_shape hcol
  exact ⟨ds, nm, by rw [← hkey, hk, hsk], hds, hl, he⟩

/-- C1: a file whose extension, compared case-insensitively, is not in
`include_extensions` never contributes an entry to the collected mapping:
its relative-path key is absent from the result. -/
theorem extension_gate_excludes
    (cfg : Config) (mime : String → Option String) (base : String) (fs : FS)
    (p : List String) (name : String)
    (h : pyLower (pySuffix name) ∉ cfg.include_extensions.map pyLower) :
    (p ++ [name]) ∉ collectionKeys cfg mime base fs := by
  intro hmem
  obtain ⟨ds, nm, hsk, hds, hl, he⟩ := collectionKeys_shape hmem
  obtain ⟨hpds, hpn⟩ := concat_eq_concat hsk.symm
  rw [hpn] at he
  apply h
  rw [← pyLower_idem (pySuffix name)]
  exact List.mem_map_of_mem pyLower (by simpa using he)

/-- Witness for C1: a `.txt` file is not collected under the default
configuration. -/
theorem extension_gate_excludes_witness :
    pyLower (pySuffix "notes.txt") ∉ default_config.include_extensions.map pyLower ∧
      ([] ++ ["notes.txt"]) ∉ collectionKeys default_config no_mime "r"
        (FS.dir (Entries.cons "notes.txt" (FS.file (FileData.ok "x")) Entries.nil)) :=
  ⟨by decide,
   extension_gate_excludes default_config no_mime "r"
     (FS.dir (Entries.cons "notes.txt" (FS.file (FileData.ok "x")) Entries.nil))
     [] "notes.txt" (by decide)⟩

/-- C2: no key of the collected mapping passes through a directory whose
basename is in `exclude_dirs`: any relative path with an excluded name as
a directory component is absent from the result, whatever the file's
extension. -/
theorem excluded_dir_prunes
    (cfg : Config) (mime : String → Option String) (base : String) (fs : FS)
    (p1 p2 : List String) (d name : String)
    (h : d ∈ cfg.exclude_dirs) :
    (p1 ++ d :: (p2 ++ [name])) ∉ collectionKeys cfg mime base fs := by
  intro hmem
  obtain ⟨ds, nm, hsk, hds, hl, he⟩ := collectionKeys_shape hmem
  have heq : ds ++ [nm] = (p1 ++ d :: p2) ++ [name] := by
    rw [← hsk]
    simp
  obtain ⟨hpds, hpn⟩ := concat_eq_concat heq
  have hdm : d ∈ ds := by
    rw [hpds]
    exact List.mem_append_right _ (List.mem_cons_self _ _)
  have hd2 : d ∉ cfg.exclude_dirs := by simpa using hds d hdm
  exact hd2 h

/-- Witness for C2: a `.js` file under `node_modules` is absent. -/
theorem excluded_dir_prunes_witness :
    "node_modules" ∈ default_config.exclude_dirs ∧
      ([] ++ "node_modules" :: ([] ++ ["d.js"])) ∉ collectionKeys default_config no_mime "r"
        (FS.dir (Entries.cons "node_modules"
          (FS.dir (Entries.cons "d.js" (FS.file (FileData.ok "q")) Entries.nil)) Entries.nil)) :=
  ⟨by decide,
   excluded_dir_prunes default_config no_mime "r"
     (FS.dir (Entries.cons "node_modules"
       (FS.dir (Entries.cons "d.js" (FS.file (FileData.ok "q")) Entries.nil)) Entries.nil))
     [] [] "node_modules" "d.js" (by decide)⟩

/-- C4: a file whose lower-cased basename equals one of the lock-file
names (compared case-insensitively) is never collected, whatever its
extension. -/
theorem lock_file_excluded
    (cfg : Config) (mime : String → Option String) (base : String) (fs : FS)
    (p : List String) (name : String)
    (h : pyLower name ∈ lock_file_names.map pyLower) :
    (p ++ [name]) ∉ collectionKeys cfg mime base fs := by
  intro hmem
  obtain ⟨ds, nm, hsk, hds, hl, he⟩ := collectionKeys_shape hmem
  obtain ⟨hpds, hpn⟩ := concat_eq_concat hsk.symm
  rw [hpn] at hl
  have hfix : lock_file_names.map pyLower = lock_file_names := by decide
  rw [hfix] at h
  have hl2 : pyLower name ∉ lock_file_names := by simpa using hl
  exact hl2 h

/-- Witness for C4: `Package-Lock.json` is skipped even though `.json`
is an included extension. -/
theorem lock_file_excluded_witness :
    pyLower "Package-Lock.json" ∈ lock_file_names.map pyLower ∧
      ([] ++ ["Package-Lock.json"]) ∉ collectionKeys default_config no_mime "r"
        (FS.dir (Entries.cons "Package-Lock.json" (FS.file (FileData.ok "{}")) Entries.nil)) :=
  ⟨by decide,
   lock_file_excluded default_config no_mime "r"
     (FS.dir (Entries.cons "Package-Lock.json" (FS.file (FileData.ok "{}")) Entries.nil))
     [] "Package-Lock.json" (by decide)⟩

/-- C10: a file whose basename starts with a dot and has no further dot
has the empty string as its computed extension, so it is never collected
under the default configuration, although names of that very form are
listed in the default `include_extensions`. -/
theorem dotfile_never_included
    (mime : String → Option String) (base : String) (fs : FS)
    (p : List String) (name : String)
    (h1 : name.data.head? = some '.') (h2 : '.' ∉ name.data.tail) :
    (p ++ [name]) ∉ collectionKeys default_config mime base fs := by
  intro hmem
  obtain ⟨ds, nm, hsk, hds, hl, he⟩ := collectionKeys_shape hmem
  obtain ⟨hpds, hpn⟩ := concat_eq_concat hsk.symm
  rw [hpn] at he
  rw [pySuffix_dotfile h1 h2] at he
  exact absurd he (by decide)

/-- Witness for C10: `.gitignore` is never collected even though the
string ".gitignore" is an entry of the default `include_extensions`. -/
theorem dotfile_never_included_witness :
    (".gitignore" : String).data.head? = some '.' ∧
      '.' ∉ (".gitignore" : String).data.tail ∧
      ".gitignore" ∈ default_include_extensions ∧
      ([] ++ [".gitignore"]) ∉ collectionKeys default_config no_mime "r"
        (FS.dir (Entries.cons ".gitignore" (FS.file (FileData.ok "node_modules")) Entries.nil)) :=
  ⟨by decide, by decide, by decide,
   dotfile_never_included no_mime "r"
     (FS.dir (Entries.cons ".gitignore" (FS.file (FileData.ok "node_modules")) Entries.nil))
     [] ".gitignore" (by decide) (by decide)⟩

/-- C6: the formatter maps the empty mapping to the fixed non-empty
sentinel string, never the empty string. -/
theorem empty_mapping_sentinel :
    format_for_sharing [] = "No code files found" ∧ format_for_sharing [] ≠ "" := by
  exact ⟨rfl, by decide⟩

/-- C7 (amended): `read_source_files` fails (with the NotFound error)
exactly when the root path resolves to nothing at all; an existing
non-directory root is accepted and walked (yielding an empty mapping),
not rejected. -/
theorem root_error_iff (cfg : Config) (mime : String → Option String)
    (src_path : String) (root : Option FS) :
    (∃ e, read_source_files cfg mime src_path root = Except.error e) ↔ root = none := by
  cases root with
  | none => simp [read_source_files]
  | some fs => simp [read_source_files]

/-- Counterexample for C7 as stated: a root path resolving to a regular
file (an existing non-directory) does not produce the NotFound failure;
the operation succeeds with an empty mapping and no warnings. -/
theorem root_not_dir_counterexample :
    read_source_files default_config no_mime "root" (some (FS.file (FileData.ok "x")))
      = Except.ok ([], []) := rfl

end ReadPy

namespace ReadPy

/-- Names of a directory's entries. -/
def namesOf (es : Entries) : List String := es.toList.map Prod.fst

/-- Well-formedness of a filesystem tree as `os.walk` sees it: the entry
names within each directory are pairwise distinct (true of every real
directory listing), recursively. -/
def validEntries : Entries → Bool
  | .nil => true
  | .cons n (FS.file _) rest => !(namesOf rest).contains n && validEntries rest
  | .cons n (FS.dir es) rest =>
    !(namesOf rest).contains n && validEntries es && validEntries rest

theorem names_contains_false {es : Entries} {m : String}
    (h : (namesOf es).contains m = false) {c : FS} (hc : (m, c) ∈ es.toList) :
    False := by
  have h1 : m ∈ namesOf es := by
    have h2 := List.mem_map_of_mem Prod.fst hc
    simpa [namesOf] using h2
  have h3 : m ∉ namesOf es := by simpa using h
  exact h3 h1

theorem valid_unique : ∀ (es : Entries), validEntries es = true →
    ∀ {n : String} {c1 c2 : FS}, (n, c1) ∈ es.toList → (n, c2) ∈ es.toList → c1 = c2
  | .nil, _, _, _, _, h1, _ => by simp [Entries.toList] at h1
  | .cons m c rest, h, n, c1, c2, h1, h2 => by
    have hp : (namesOf rest).contains m = false ∧ validEntries rest = true := by
      cases c with
      | file d =>
        simp only [validEntries, Bool.and_eq_true, Bool.not_eq_true'] at h
        exact h
      | dir es2 =>
        simp only [validEntries, Bool.and_eq_true, Bool.not_eq_true'] at h
        exact ⟨h.1.1, h.2⟩
    rw [Entries.toList] at h1 h2
    rcases List.mem_cons.mp h1 with he1 | ht1
    · rcases List.mem_cons.mp h2 with he2 | ht2
      · obtain ⟨hn1, hcc1⟩ := Prod.mk.inj he1
        obtain ⟨hn2, hcc2⟩ := Prod.mk.inj he2
        rw [hcc1, hcc2]
      · obtain ⟨hn1, hcc1⟩ := Prod.mk.inj he1
        exact absurd (hn1 ▸ ht2) (fun hx => names_contains_false hp.1 hx)
    · rcases List.mem_cons.mp h2 with he2 | ht2
      · obtain ⟨hn2, hcc2⟩ := Prod.mk.inj he2
        exact absurd (hn2 ▸ ht1) (fun hx => names_contains_false hp.1 hx)
      · exact valid_unique rest hp.2 ht1 ht2

theorem valid_sub : ∀ (es : Entries), validEntries es = true →
    ∀ {n : String} {sub : Entries}, (n, FS.dir sub) ∈ es.toList →
    validEntries sub = true
  | .nil, _, _, _, h1 => by simp [Entries.toList] at h1
  | .cons m c rest, h, n, sub, h1 => by
    rw [Entries.toList] at h1
    rcases List.mem_cons.mp h1 with he1 | ht1
    · obtain ⟨hn1, hcc1⟩ := Prod.mk.inj he1
      cases c with
      | file d => exact absurd hcc1 (by simp)
      | dir es2 =>
        simp only [validEntries, Bool.and_eq_true, Bool.not_eq_true'] at h
        obtain rfl : es2 = sub := by
          have := hcc1
          injection this.symm
        exact h.1.2
    · have hrest : validEntries rest = true := by
        cases c with
        | file d =>
          simp only [validEntries, Bool.and_eq_true, Bool.not_eq_true'] at h
          exact h.2
        | dir es2 =>
          simp only [validEntries, Bool.and_eq_true, Bool.not_eq_true'] at h
          exact h.2
      exact valid_sub rest hrest ht1

/-- The directory with entries `sub` and basename `d` sits at relative
directory path `p` inside a directory with entries `es`. -/
inductive DirAt : Entries → List String → String → Entries → Prop where
  | here {es : Entries} {d : String} {sub : Entries}
      (hmem : (d, FS.dir sub) ∈ es.toList) : DirAt es [] d sub
  | there {es es2 sub : Entries} {n d : String} {p : List String}
      (hmem : (n, FS.dir es2) ∈ es.toList)
      (hsub : DirAt es2 p d sub) : DirAt es (n :: p) d sub

theorem collected_cons_inv {cfg : Config} {es : Entries} {n : String}
    {ks : List String} (h : Collected cfg es (n :: ks)) (hne : ks ≠ []) :
    ∃ sub, (n, FS.dir sub) ∈ es.toList ∧ cfg.exclude_dirs.contains n = false ∧
      hasIndicator sub = false ∧ Collected cfg sub ks := by
  cases h with
  | file hm hl he => exact absurd rfl hne
  | dir hm hex hindf hsubcol => exact ⟨_, hm, hex, hindf, hsubcol⟩

theorem collected_not_through_marker {cfg : Config} {es : Entries}
    {p : List String} {d : String} {sub : Entries} (hat : DirAt es p d sub) :
    validEntries es = true → hasIndicator sub = true →
    ∀ suffix : List String, ¬ Collected cfg es (p ++ d :: suffix) := by
  induction hat with
  | here hmem =>
    intro hv hind suffix hcol
    rw [List.nil_append] at hcol
    cases hcol with
    | file hm hl he =>
      exact FS.noConfusion (valid_unique _ hv hm hmem)
    | dir hm hex hindf hsubcol =>
      have h2 := valid_unique _ hv hm hmem
      injection h2 with h3
      rw [h3] at hindf
      rw [hindf] at hind
      exact Bool.noConfusion hind
  | there hmem hsub ih =>
    intro hv hind suffix hcol
    rw [List.cons_append] at hcol
    obtain ⟨sub2, hm, hex, hindf, hsubcol⟩ :=
      collected_cons_inv hcol (by simp)
    have h2 := valid_unique _ hv hm hmem
    injection h2 with h3
    rw [h3] at hsubcol
    exact ih (valid_sub _ hv hmem) hind suffix hsubcol

/-- C3: a subdirectory directly containing a file named after one of the
package-boundary markers is pruned: in a well-formed tree (distinct
entry names per directory), no key at or beneath that subdirectory's
path occurs in the collected mapping. -/
theorem package_boundary_prunes
    (cfg : Config) (mime : String → Option String) (base : String)
    (es : Entries) (p : List String) (d : String) (sub : Entries)
    (m : String) (data : FileData) (suffix : List String)
    (hv : validEntries es = true)
    (hat : DirAt es p d sub)
    (hm : m ∈ package_indicators)
    (hf : (m, FS.file data) ∈ sub.toList) :
    (p ++ d :: suffix) ∉ collectionKeys cfg mime base (FS.dir es) := by
  intro hmem
  simp only [collectionKeys, collection, List.mem_map] at hmem
  obtain ⟨kc, hkc, hkey⟩ := hmem
  obtain ⟨es2, ks2, hfs, hk, hcol⟩ := walkFS_mem hkc
  injection hfs with hes
  rw [← hes] at hcol
  have hks : ks2 = p ++ d :: suffix := by rw [← hk, hkey]
  rw [hks] at hcol
  have hind : hasIndicator sub = true := by
    unfold hasIndicator
    rw [List.any_eq_true]
    refine ⟨m, hm, ?_⟩
    rw [List.any_eq_true]
    exact ⟨(m, FS.file data), hf, by simp⟩
  exact collected_not_through_marker hat hv hind suffix hcol

end ReadPy

namespace ReadPy

/-- Example subdirectory holding a package marker and a source file. -/
def vendor_sub : Entries :=
  Entries.cons "package.json" (FS.file (FileData.ok "m"))
    (Entries.cons "x.js" (FS.file (FileData.ok "1")) Entries.nil)

/-- Example root whose only entry is the `vendor` subdirectory. -/
def vendor_root : Entries := Entries.cons "vendor" (FS.dir vendor_sub) Entries.nil

/-- Witness for C3: a `vendor` directory directly containing
`package.json` is pruned, so `vendor/x.js` is absent. -/
theorem package_boundary_prunes_witness :
    validEntries vendor_root = true ∧
    DirAt vendor_root [] "vendor" vendor_sub ∧
    "package.json" ∈ package_indicators ∧
    ("package.json", FS.file (FileData.ok "m")) ∈ vendor_sub.toList ∧
    ([] ++ "vendor" :: ["x.js"]) ∉
      collectionKeys default_config no_mime "r" (FS.dir vendor_root) :=
  ⟨by decide, DirAt.here (by decide), by decide, by decide,
   package_boundary_prunes default_config no_mime "r" vendor_root [] "vendor"
     vendor_sub "package.json" (FileData.ok "m") ["x.js"]
     (by decide) (DirAt.here (by decide)) (by decide) (by decide)⟩

/-- The warning line lines 84-87 print for a failed read of the file at
the given path, if the read fails. -/
def warnOf (p : String) : FileData → Option String
  | .ok _ => none
  | .decodeError => some ("Warning: Could not read " ++ p ++ " as text file")
  | .ioError e => some ("Error reading " ++ p ++ ": " ++ e)

theorem readFileStep_fail {cfg : Config} {mime : String → Option String}
    {base : String} (rel : List String) {name : String} {bad : FileData} {w : String}
    (h1 : lock_file_names.contains (pyLower name) = false)
    (h2 : cfg.include_extensions.contains (pyLower (pySuffix name)) = true)
    (h3 : mimeAdmits mime (joinParts base name) = true)
    (hw : warnOf (joinParts base name) bad = some w) :
    (readFileStep cfg mime base rel name bad).1 = [] ∧
      w ∈ (readFileStep cfg mime base rel name bad).2 := by
  cases bad with
  | ok c => simp [warnOf] at hw
  | decodeError =>
    simp only [warnOf, Option.some.injEq] at hw
    have h1m : pyLower name ∉ lock_file_names := by simpa using h1
    have h2m : pyLower (pySuffix name) ∈ cfg.include_extensions := by simpa using h2
    simp [readFileStep, h1m, h2m, h3, hw]
  | ioError e =>
    simp only [warnOf, Option.some.injEq] at hw
    have h1m : pyLower name ∉ lock_file_names := by simpa using h1
    have h2m : pyLower (pySuffix name) ∈ cfg.include_extensions := by simpa using h2
    simp [readFileStep, h1m, h2m, h3, hw]

theorem walkSubs_skips_file (cfg : Config) (mime : String → Option String)
    (base : String) (rel : List String) :
    ∀ (pre post : Entries) (name : String) (d : FileData),
      walkSubs cfg mime base rel (appendEntries pre (Entries.cons name (FS.file d) post))
        = walkSubs cfg mime base rel (appendEntries pre post)
  | .nil, post, name, d => by rw [appendEntries, appendEntries, walkSubs]
  | .cons n (FS.file d2) pre, post, name, d => by
    rw [appendEntries, appendEntries, walkSubs, walkSubs]
    exact walkSubs_skips_file cfg mime base rel pre post name d
  | .cons n (FS.dir es) pre, post, name, d => by
    rw [appendEntries, appendEntries, walkSubs, walkSubs]
    rw [walkSubs_skips_file cfg mime base rel pre post name d]

theorem processFiles_mid {cfg : Config} {mime : String → Option String}
    {base : String} {rel : List String} {name : String} {bad : FileData}
    (hnil : (readFileStep cfg mime base rel name bad).1 = []) :
    ∀ (pre post : Entries),
      (processFiles cfg mime base rel
          (appendEntries pre (Entries.cons name (FS.file bad) post))).1
        = (processFiles cfg mime base rel (appendEntries pre post)).1
  | .nil, post => by
    rw [appendEntries, appendEntries, processFiles]
    simp [hnil]
  | .cons n (FS.file d2) pre, post => by
    rw [appendEntries, appendEntries, processFiles, processFiles]
    dsimp only
    rw [processFiles_mid hnil pre post]
  | .cons n (FS.dir es) pre, post => by
    rw [appendEntries, appendEntries, processFiles, processFiles]
    exact processFiles_mid hnil pre post

theorem processFiles_mid_warn {cfg : Config} {mime : String → Option String}
    {base : String} {rel : List String} {name : String} {bad : FileData} {w : String}
    (hw : w ∈ (readFileStep cfg mime base rel name bad).2) :
    ∀ (pre post : Entries),
      w ∈ (processFiles cfg mime base rel
        (appendEntries pre (Entries.cons name (FS.file bad) post))).2
  | .nil, post => by
    rw [appendEntries, processFiles]
    exact List.mem_append_left _ hw
  | .cons n (FS.file d2) pre, post => by
    rw [appendEntries, processFiles]
    exact List.mem_append_right _ (processFiles_mid_warn hw pre post)
  | .cons n (FS.dir es) pre, post => by
    rw [appendEntries, processFiles]
    exact processFiles_mid_warn hw pre post

/-- A failing-read file `name` sits, and is reached by the walk, in the
directory at relative path `p` inside a directory with entries `es`;
`es2` is the same tree with that one file removed. Each step records
that the walk does not prune the subdirectory on the way down (its name
is not excluded and it holds no package marker), i.e. that the file's
read is actually attempted. -/
inductive ReachedBadFile (cfg : Config) (name : String) (bad : FileData) :
    Entries → List String → Entries → Prop where
  | here {pre post : Entries} :
      ReachedBadFile cfg name bad
        (appendEntries pre (Entries.cons name (FS.file bad) post)) []
        (appendEntries pre post)
  | there {pre post sub sub2 : Entries} {n : String} {p : List String}
      (hexcl : cfg.exclude_dirs.contains n = false)
      (hind : hasIndicator sub = false)
      (hsub : ReachedBadFile cfg name bad sub p sub2) :
      ReachedBadFile cfg name bad
        (appendEntries pre (Entries.cons n (FS.dir sub) post)) (n :: p)
        (appendEntries pre (Entries.cons n (FS.dir sub2) post))

theorem readFileStep_bad_fst {cfg : Config} {mime : String → Option String}
    {base : String} {rel : List String} {name : String} {bad : FileData}
    (hbad : ∀ c, bad ≠ FileData.ok c) :
    (readFileStep cfg mime base rel name bad).1 = [] := by
  cases bad with
  | ok c => exact absurd rfl (hbad c)
  | decodeError =>
    simp only [readFileStep]
    split_ifs <;> rfl
  | ioError e =>
    simp only [readFileStep]
    split_ifs <;> rfl

theorem toList_appendEntries : ∀ (a b : Entries),
    (appendEntries a b).toList = a.toList ++ b.toList
  | .nil, b => by simp [appendEntries, Entries.toList]
  | .cons n c r, b => by
    simp only [appendEntries, Entries.toList, List.cons_append]
    rw [toList_appendEntries r b]

theorem hasIndicator_of_insert {cfg : Config} {name : String} {bad : FileData}
    {es : Entries} {p : List String} {es2 : Entries}
    (h : ReachedBadFile cfg name bad es p es2) (h2 : hasIndicator es2 = true) :
    hasIndicator es = true := by
  cases h with
  | here =>
    unfold hasIndicator at h2 ⊢
    rw [List.any_eq_true] at h2 ⊢
    obtain ⟨m, hm, hany⟩ := h2
    refine ⟨m, hm, ?_⟩
    rw [List.any_eq_true] at hany ⊢
    obtain ⟨e, he, hbeq⟩ := hany
    rw [toList_appendEntries] at he
    rw [toList_appendEntries]
    rcases List.mem_append.mp he with h | h
    · exact ⟨e, List.mem_append_left _ h, hbeq⟩
    · exact ⟨e, List.mem_append_right _ (List.mem_cons_of_mem _ h), hbeq⟩
  | there hexcl hind hsub =>
    unfold hasIndicator at h2 ⊢
    rw [List.any_eq_true] at h2 ⊢
    obtain ⟨m, hm, hany⟩ := h2
    refine ⟨m, hm, ?_⟩
    rw [List.any_eq_true] at hany ⊢
    obtain ⟨e, he, hbeq⟩ := hany
    rw [toList_appendEntries] at he
    rw [toList_appendEntries]
    rcases List.mem_append.mp he with h | h
    · exact ⟨e, List.mem_append_left _ h, hbeq⟩
    · rcases List.mem_cons.mp h with h | h
      · refine ⟨(_, FS.dir _), List.mem_append_right _ (List.mem_cons_self _ _), ?_⟩
        rw [h] at hbeq
        exact hbeq
      · exact ⟨e, List.mem_append_right _ (List.mem_cons_of_mem _ h), hbeq⟩

theorem processFiles_dir_subtree (cfg : Config) (mime : String → Option String)
    (base : String) (rel : List String) :
    ∀ (pre post : Entries) (n : String) (c1 c2 : Entries),
      processFiles cfg mime base rel (appendEntries pre (Entries.cons n (FS.dir c1) post))
        = processFiles cfg mime base rel (appendEntries pre (Entries.cons n (FS.dir c2) post))
  | .nil, post, n, c1, c2 => by
    rw [appendEntries, appendEntries, processFiles, processFiles]
  | .cons m (FS.file d) pre, post, n, c1, c2 => by
    rw [appendEntries, appendEntries, processFiles, processFiles,
      processFiles_dir_subtree cfg mime base rel pre post n c1 c2]
  | .cons m (FS.dir e2) pre, post, n, c1, c2 => by
    rw [appendEntries, appendEntries, processFiles, processFiles]
    exact processFiles_dir_subtree cfg mime base rel pre post n c1 c2

theorem walkSubs_append (cfg : Config) (mime : String → Option String)
    (base : String) (rel : List String) :
    ∀ (a b : Entries),
      walkSubs cfg mime base rel (appendEntries a b)
        = ((walkSubs cfg mime base rel a).1 ++ (walkSubs cfg mime base rel b).1,
           (walkSubs cfg mime base rel a).2 ++ (walkSubs cfg mime base rel b).2)
  | .nil, b => by simp [appendEntries, walkSubs]
  | .cons m (FS.file d) rest, b => by
    simp only [appendEntries, walkSubs]
    exact walkSubs_append cfg mime base rel rest b
  | .cons m (FS.dir e2) rest, b => by
    simp only [appendEntries, walkSubs]
    rw [walkSubs_append cfg mime base rel rest b]
    by_cases hg : (cfg.exclude_dirs.contains m || hasIndicator e2) = true
    · rw [if_pos hg, if_pos hg]
    · rw [if_neg hg, if_neg hg]
      simp [List.append_assoc]

theorem append_middle_congr {α : Type} {A B A2 B2 Z : List α}
    (h : A ++ B = A2 ++ B2) : A ++ (B ++ Z) = A2 ++ (B2 ++ Z) := by
  rw [← List.append_assoc, h, List.append_assoc]

theorem walk_insert_core {cfg : Config} {mime : String → Option String}
    {name : String} {bad : FileData}
    (hbad : ∀ c, bad ≠ FileData.ok c)
    (h1 : lock_file_names.contains (pyLower name) = false)
    (h2 : cfg.include_extensions.contains (pyLower (pySuffix name)) = true) :
    ∀ {es : Entries} {p : List String} {es2 : Entries},
      ReachedBadFile cfg name bad es p es2 →
      ∀ (base : String) (rel : List String),
      ((processFiles cfg mime base rel es).1 ++ (walkSubs cfg mime base rel es).1
        = (processFiles cfg mime base rel es2).1 ++ (walkSubs cfg mime base rel es2).1)
      ∧ (∀ w, mimeAdmits mime (joinParts (List.foldl joinParts base p) name) = true →
          warnOf (joinParts (List.foldl joinParts base p) name) bad = some w →
          w ∈ (processFiles cfg mime base rel es).2 ++ (walkSubs cfg mime base rel es).2) := by
  intro es p es2 hins
  induction hins with
  | here =>
    intro base rel
    constructor
    · rw [walkSubs_skips_file, processFiles_mid (readFileStep_bad_fst hbad)]
    · intro w h3 hw
      rw [List.foldl_nil] at h3 hw
      obtain ⟨hnil, hmem⟩ := readFileStep_fail rel h1 h2 h3 hw
      exact List.mem_append_left _ (processFiles_mid_warn hmem _ _)
  | there hexcl hind hsub ih =>
    rename_i pre post sub sub2 n pp
    intro base rel
    have hind2 : hasIndicator sub2 = false := by
      cases hh : hasIndicator sub2
      · rfl
      · exact absurd hind (by simp [hasIndicator_of_insert hsub hh])
    have hexm : n ∉ cfg.exclude_dirs := by simpa using hexcl
    have hmid : ∀ (s : Entries), hasIndicator s = false →
        walkSubs cfg mime base rel (Entries.cons n (FS.dir s) post)
          = ((processFiles cfg mime (joinParts base n) (rel ++ [n]) s).1
              ++ (walkSubs cfg mime (joinParts base n) (rel ++ [n]) s).1
              ++ (walkSubs cfg mime base rel post).1,
             (processFiles cfg mime (joinParts base n) (rel ++ [n]) s).2
              ++ (walkSubs cfg mime (joinParts base n) (rel ++ [n]) s).2
              ++ (walkSubs cfg mime base rel post).2) := by
      intro s hs
      rw [walkSubs]
      rw [if_neg (by simp [hexm, hs])]
    constructor
    · rw [processFiles_dir_subtree cfg mime base rel pre post n sub sub2]
      rw [walkSubs_append cfg mime base rel pre (Entries.cons n (FS.dir sub) post),
        walkSubs_append cfg mime base rel pre (Entries.cons n (FS.dir sub2) post)]
      rw [hmid sub hind, hmid sub2 hind2]
      dsimp only
      simp only [List.append_assoc]
      exact congrArg _ (congrArg _ (append_middle_congr
        (ih (joinParts base n) (rel ++ [n])).1))
    · intro w h3 hw
      rw [List.foldl_cons] at h3 hw
      have hihw := (ih (joinParts base n) (rel ++ [n])).2 w h3 hw
      rw [walkSubs_append cfg mime base rel pre (Entries.cons n (FS.dir sub) post)]
      rw [hmid sub hind]
      dsimp only
      apply List.mem_append_right
      apply List.mem_append_right
      exact List.mem_append_left _ hihw

/-- C8: a file whose read fails (decode failure or any other per-file
error), wherever it sits in the walked tree, is skipped: the collected
mapping is exactly the one obtained from the same tree without that
file, and the warning line naming its path appears in the diagnostic
output. No per-file failure aborts the walk or loses other entries. -/
theorem per_file_failure_recovered
    (cfg : Config) (mime : String → Option String) (base : String)
    (es es2 : Entries) (p : List String) (name : String) (bad : FileData) (w : String)
    (hins : ReachedBadFile cfg name bad es p es2)
    (h1 : lock_file_names.contains (pyLower name) = false)
    (h2 : cfg.include_extensions.contains (pyLower (pySuffix name)) = true)
    (h3 : mimeAdmits mime (joinParts (List.foldl joinParts base p) name) = true)
    (hw : warnOf (joinParts (List.foldl joinParts base p) name) bad = some w) :
    (walkFS cfg mime base (FS.dir es)).1 = (walkFS cfg mime base (FS.dir es2)).1
    ∧ w ∈ (walkFS cfg mime base (FS.dir es)).2 := by
  have hbad : ∀ c, bad ≠ FileData.ok c := by
    intro c hc
    rw [hc] at hw
    simp [warnOf] at hw
  obtain ⟨hmap, hwarn⟩ := walk_insert_core hbad h1 h2 hins base []
  constructor
  · rw [walkFS, walkFS]
    dsimp only
    exact hmap
  · rw [walkFS]
    dsimp only
    exact hwarn w h3 hw

/-- The good file next to the nested failing one. -/
def nested_pre : Entries := Entries.cons "a.py" (FS.file (FileData.ok "1")) Entries.nil

/-- Subdirectory contents with the failing file present. -/
def nested_bad_sub : Entries :=
  appendEntries Entries.nil (Entries.cons "bad.py" (FS.file FileData.decodeError)
    (Entries.cons "c.py" (FS.file (FileData.ok "2")) Entries.nil))

/-- The same subdirectory contents without the failing file. -/
def nested_good_sub : Entries :=
  appendEntries Entries.nil (Entries.cons "c.py" (FS.file (FileData.ok "2")) Entries.nil)

/-- Root entries with the failing file nested in `sub`. -/
def nested_root_bad : Entries :=
  appendEntries nested_pre (Entries.cons "sub" (FS.dir nested_bad_sub) Entries.nil)

/-- Root entries without the failing file. -/
def nested_root_good : Entries :=
  appendEntries nested_pre (Entries.cons "sub" (FS.dir nested_good_sub) Entries.nil)

/-- Witness for C8: a failing file nested one level down (`sub/bad.py`)
is skipped with its warning recorded, while `a.py` at the root and
`sub/c.py` next to it are unaffected. -/
theorem per_file_failure_recovered_witness :
    ReachedBadFile default_config "bad.py" FileData.decodeError
        nested_root_bad ["sub"] nested_root_good ∧
    lock_file_names.contains (pyLower "bad.py") = false ∧
    default_config.include_extensions.contains (pyLower (pySuffix "bad.py")) = true ∧
    mimeAdmits no_mime (joinParts (List.foldl joinParts "r" ["sub"]) "bad.py") = true ∧
    warnOf (joinParts (List.foldl joinParts "r" ["sub"]) "bad.py") FileData.decodeError
      = some "Warning: Could not read r/sub/bad.py as text file" ∧
    ((walkFS default_config no_mime "r" (FS.dir nested_root_bad)).1
        = (walkFS default_config no_mime "r" (FS.dir nested_root_good)).1
      ∧ "Warning: Could not read r/sub/bad.py as text file" ∈
          (walkFS default_config no_mime "r" (FS.dir nested_root_bad)).2) := by
  have hr : ReachedBadFile default_config "bad.py" FileData.decodeError
      nested_root_bad ["sub"] nested_root_good :=
    ReachedBadFile.there (by decide) (by decide) ReachedBadFile.here
  exact ⟨hr, by decide, by decide, by decide, by decide,
    per_file_failure_recovered default_config no_mime "r"
      nested_root_bad nested_root_good ["sub"] "bad.py" FileData.decodeError
      "Warning: Could not read r/sub/bad.py as text file"
      hr (by decide) (by decide) (by decide) (by decide)⟩


/-- Counterexample for C9 as stated: the caller-supplied entry ".PY"
matches the extension of "a.py" case-insensitively, yet the file is not
admitted: the collected mapping is empty. -/
theorem extension_case_counterexample :
    pyLower ".PY" = pyLower (pySuffix "a.py") ∧
      collection { exclude_dirs := [], include_extensions := [".PY"] } no_mime "r"
        (FS.dir (Entries.cons "a.py" (FS.file (FileData.ok "x")) Entries.nil)) = [] :=
  ⟨by decide, by decide⟩

/-- C9 (amended): extension matching lower-cases only the file's side:
a readable file is admitted exactly when it is not a lock file, the
mimetype gate passes, and `include_extensions` contains, as an exact
string, the lower-cased extension. Hence ".py" in the set admits "A.PY",
but a caller-supplied ".PY" admits nothing. -/
theorem extension_gate_characterization
    (cfg : Config) (mime : String → Option String) (base : String)
    (rel : List String) (name : String) (content : String) :
    (readFileStep cfg mime base rel name (FileData.ok content)).1 ≠ [] ↔
      (lock_file_names.contains (pyLower name) = false ∧
       cfg.include_extensions.contains (pyLower (pySuffix name)) = true ∧
       mimeAdmits mime (joinParts base name) = true) := by
  by_cases h1 : pyLower name ∈ lock_file_names <;>
    by_cases h2 : pyLower (pySuffix name) ∈ cfg.include_extensions <;>
      by_cases h3 : mimeAdmits mime (joinParts base name) = true <;>
        simp [readFileStep, h1, h2, h3]

end ReadPy

namespace ReadPy

theorem string_join_append (l₁ l₂ : List String) :
    String.join (l₁ ++ l₂) = String.join l₁ ++ String.join l₂ := by
  apply String.ext
  simp

theorem string_join_cons (a : String) (l : List String) :
    String.join (a :: l) = a ++ String.join l := by
  apply String.ext
  simp

theorem format_blocks_eq (l : List (String × String)) :
    String.join (l.flatMap fun e =>
        ["\n=== " ++ e.1 ++ " ===\n", e.2, "\n" ++ sep_line ++ "\n"])
      = String.join (l.map entry_block) := by
  induction l with
  | nil => rfl
  | cons e rest ih =>
    rw [List.flatMap_cons, List.map_cons, string_join_append, string_join_cons, ih]
    apply String.ext
    simp [entry_block]

theorem pairLe_trans (a b c : String × String) :
    pairLe a b → pairLe b c → pairLe a c := by
  intro hab hbc
  simp only [pairLe] at hab hbc ⊢
  by_cases h1 : a.1 = b.1
  · rw [if_pos h1] at hab
    by_cases h2 : b.1 = c.1
    · rw [if_pos h2] at hbc
      rw [if_pos (h1.trans h2)]
      exact decide_eq_true (le_trans (of_decide_eq_true hab) (of_decide_eq_true hbc))
    · rw [if_neg h2] at hbc
      have h3 : ¬ a.1 = c.1 := fun he => h2 (h1.symm.trans he)
      rw [if_neg h3]
      exact decide_eq_true (show a.1 < c.1 by rw [h1]; exact of_decide_eq_true hbc)
  · rw [if_neg h1] at hab
    by_cases h2 : b.1 = c.1
    · have h3 : ¬ a.1 = c.1 := fun he => h1 (he.trans h2.symm)
      rw [if_neg h3]
      exact decide_eq_true (show a.1 < c.1 by rw [← h2]; exact of_decide_eq_true hab)
    · rw [if_neg h2] at hbc
      have hlt : a.1 < c.1 := lt_trans (of_decide_eq_true hab) (of_decide_eq_true hbc)
      rw [if_neg (ne_of_lt hlt)]
      exact decide_eq_true hlt

theorem pairLe_total (a b : String × String) :
    pairLe a b || pairLe b a := by
  simp only [pairLe]
  by_cases h : a.1 = b.1
  · rw [if_pos h, if_pos h.symm]
    rcases le_total a.2 b.2 with hle | hle
    · simp [hle]
    · simp [hle]
  · rw [if_neg h, if_neg (Ne.symm h)]
    rcases lt_or_gt_of_ne h with hlt | hgt
    · simp [hlt]
    · simp [hgt]

/-- C5: on a non-empty mapping, the formatter's output is exactly the
concatenation, over the entries sorted ascending by key, of blocks
"blank line, `=== path ===` header, content verbatim, newline,
80-character separator line, newline"; the emitted order is a
permutation of the input sorted so that the keys are ascending. Being a
pure function of the mapping, the output is identical on repeated
invocations. -/
theorem formatter_blocks_sorted (e : String × String) (rest : List (String × String)) :
    format_for_sharing (e :: rest)
        = String.join ((sorted_items (e :: rest)).map entry_block)
      ∧ (sorted_items (e :: rest)).Perm (e :: rest)
      ∧ ((sorted_items (e :: rest)).map Prod.fst).Pairwise (· ≤ ·) := by
  refine ⟨?_, ?_, ?_⟩
  · rw [format_for_sharing, if_neg (by simp)]
    exact format_blocks_eq _
  · exact List.mergeSort_perm _ _
  · rw [List.pairwise_map]
    have hs := List.sorted_mergeSort pairLe_trans pairLe_total (e :: rest)
    refine hs.imp ?_
    intro a b hab
    simp only [pairLe] at hab
    by_cases h : a.1 = b.1
    · exact le_of_eq h
    · rw [if_neg h] at hab
      exact le_of_lt (of_decide_eq_true hab)

end ReadPy
